import Mathlib

/-!
# Verification of the GRN training script (`train.py`)

Shallow embedding of the algorithmically relevant parts of `train.py`:

* `unroll` — iterative propagation of a feature matrix by a propagation
  matrix, producing the list of snapshots `X, PX, P²X, …`;
* `accuracy` — fraction of rows whose arg-max class index matches the label;
* `earlystopping` — the stateful early-stopping rule (`best`, `patience`, `t`);
* `train` — the epoch loop: forward pass, backward/optimizer step on the
  training loss, validation evaluation, early-stopping test with break.

Tensor entries are modelled as rationals.  The neural network itself
(`GRN`), the cross-entropy loss and the Adam optimizer live in external
libraries; they are abstracted as parameters (`Env`), while every piece of
control flow and data flow written in `train.py` itself is embedded
concretely.
-/

namespace GRNSpec

/-! ## Definitions -/

/-- The snapshot produced at index `i` by the loop body of `unroll`:
`outs[0] = X`, `outs[i] = torch.mm(P, outs[i-1])` for `i ≥ 1`. -/
def unrollEntry {n f : ℕ} (X : Matrix (Fin n) (Fin f) ℚ)
    (P : Matrix (Fin n) (Fin n) ℚ) : ℕ → Matrix (Fin n) (Fin f) ℚ
  | 0 => X
  | i + 1 => P * unrollEntry X P i

/-- Embedding of `unroll(X, P, n_iters)` (train.py:14-28): the tensor of
shape `(n_iters, n_nodes, n_feats)` is modelled as the length-`n_iters`
list of its slices.  Slice `0` is `X` and slice `i` is `P · slice (i-1)`,
exactly as the loop `for i in range(1, n_iters)` fills `outs`. -/
def unroll {n f : ℕ} (X : Matrix (Fin n) (Fin f) ℚ)
    (P : Matrix (Fin n) (Fin n) ℚ) (n_iters : ℕ) :
    List (Matrix (Fin n) (Fin f) ℚ) :=
  (List.range n_iters).map (unrollEntry X P)

/-- Index of the first maximal entry of a row, as produced by
`output.max(1)[1]` in `accuracy` (train.py:35). -/
def argmaxList : List ℚ → ℕ
  | [] => 0
  | x :: xs =>
    let j := argmaxList xs
    if x < xs.getD j x then j + 1 else 0

/-- The per-row predictions `preds = output.max(1)[1]` (train.py:35),
with the score matrix modelled as a list of rows. -/
def preds (output : List (List ℚ)) : List ℕ :=
  output.map argmaxList

/-- Embedding of `accuracy(output, labels)` (train.py:34-38):
`correct = preds.eq(labels).double().sum()`, returned as
`correct / len(labels)`. -/
def accuracy (output : List (List ℚ)) (labels : List ℕ) : ℚ :=
  ((((preds output).zip labels).countP fun q => q.1 == q.2 : ℕ) : ℚ) /
    (labels.length : ℚ)

/-- State of the `earlystopping` class (train.py:111-131): the running
best validation loss, the patience, and the counter `t` of non-improving
epochs seen so far. -/
structure earlystopping where
  best : ℚ
  patience : ℕ
  t : ℕ

/-- Constructor of `earlystopping` (train.py:117-120): `best` starts at
`1000` and `t` at `0`. -/
def earlystopping.init (patience : ℕ) : earlystopping :=
  ⟨1000, patience, 0⟩

/-- One call of `earlystopping.test(l_list)` (train.py:121-131):
`current = l_list[-1]`; if it improves on `best`, update `best` and
return `False`; otherwise increment `t` and return `True` exactly when
`t` exceeds `patience`.  Returns the result together with the updated
state. -/
def earlystopping.test (s : earlystopping) (l_list : List ℚ) :
    Bool × earlystopping :=
  let current := l_list.getLastD 0
  if current < s.best then
    (false, ⟨current, s.patience, s.t⟩)
  else if s.t + 1 > s.patience then
    (true, ⟨s.best, s.patience, s.t + 1⟩)
  else
    (false, ⟨s.best, s.patience, s.t + 1⟩)

/-- A sequence of calls to `earlystopping.test`, one per validation loss,
each receiving the whole loss list accumulated so far — exactly how
`train` calls `es.test(loss_list_val)` once per epoch.  `done` is the
list already submitted; the result pairs the list of returned booleans
with the final state. -/
def esRun (s : earlystopping) (done : List ℚ) :
    List ℚ → List Bool × earlystopping
  | [] => ([], s)
  | l :: ls =>
    let r := s.test (done ++ [l])
    let rest := esRun r.2 (done ++ [l]) ls
    (r.1 :: rest.1, rest.2)

/-- The value of `self.best` after submitting `losses`, starting from the
initial `best = 1000`: fold of `if current < best then current else best`. -/
def runningBest (losses : List ℚ) : ℚ :=
  List.foldl (fun b l => if l < b then l else b) 1000 losses

/-- Whether epoch `j` is non-improving: its loss fails to beat the running
best of the earlier epochs (the `else` branch of `earlystopping.test`). -/
def nonImprovingB (losses : List ℚ) (j : ℕ) : Bool :=
  decide (runningBest (losses.take j) ≤ losses.getD j 0)

/-- Number of non-improving epochs among the first `m` epochs. -/
def countNI (losses : List ℚ) (m : ℕ) : ℕ :=
  (List.range m).countP (nonImprovingB losses)

/-- Modelled from the spec (claim C2): the count of *consecutive*
non-improving epochs ending at epoch `k`, resetting to zero at every
improving epoch. -/
def consecNI (losses : List ℚ) : ℕ → ℕ
  | 0 => if nonImprovingB losses 0 then 1 else 0
  | k + 1 => if nonImprovingB losses (k + 1) then consecNI losses k + 1 else 0

/-- Abstract interface to the external-library pieces `train` uses: the
module-level globals `features` and `P` that `train` reads at
train.py:80, the `GRN` model (the boolean marks training mode, toggled
by `model.train()` / `model.eval()`), the parameter update performed by
`loss_train.backward(); g_op.step()` for an Adam optimizer built with a
learning rate and a weight decay, and the cross-entropy loss `loss_ce`.
`θ` is the type of the model parameters. -/
structure Env (θ : Type) (nn nf c : ℕ) where
  features : Matrix (Fin nn) (Fin nf) ℚ
  P : Matrix (Fin nn) (Fin nn) ℚ
  model : Bool → θ → List (Matrix (Fin nn) (Fin nf) ℚ) → Matrix (Fin nn) (Fin c) ℚ
  update : ℚ → ℚ → θ → ℚ → θ
  loss_ce : List (List ℚ) → List ℕ → ℚ

/-- Row selection `outs[idx]` on a score matrix, each selected row as a
list of class scores. -/
def restrictRows {nn c : ℕ} (outs : Matrix (Fin nn) (Fin c) ℚ)
    (idx : List (Fin nn)) : List (List ℚ) :=
  idx.map fun i => List.ofFn fun j => outs i j

/-- Label selection `labels[idx]`. -/
def restrictLabels {nn : ℕ} (labels : Fin nn → ℕ) (idx : List (Fin nn)) :
    List ℕ :=
  idx.map labels

/-- The arguments of `train` that stay fixed across epochs: the
environment together with `labels`, `lr_`, `w_`, `idx_train_` and
`idx_val_` (train.py:71). -/
structure TCtx (θ : Type) (nn nf c : ℕ) where
  env : Env θ nn nf c
  labels : Fin nn → ℕ
  lr_ : ℚ
  w_ : ℚ
  idx_train_ : List (Fin nn)
  idx_val_ : List (Fin nn)

/-- The loop state of `train` (train.py:81-103), together with two ghost
observation lists: `fwdLog` records every tensor passed to the model in
a forward pass, and `stops` records every boolean returned by
`es.test`. -/
structure TState (θ : Type) (nn nf : ℕ) where
  params : θ
  loss_list_train : List ℚ
  loss_list_val : List ℚ
  acc_list_val : List ℚ
  es : earlystopping
  fwdLog : List (List (Matrix (Fin nn) (Fin nf) ℚ))
  stops : List Bool

/-- One iteration of `for epoch in range(n_epochs)` (train.py:86-103), in
the source's order: training-mode forward pass, cross-entropy loss on
the training rows, backward/optimizer step, eval-mode forward pass,
validation loss and accuracy on the validation rows, append to the three
lists, early-stopping test on the accumulated validation-loss list.
Returns the `stop` boolean together with the updated state. -/
def epochStep {θ : Type} {nn nf c : ℕ} (ctx : TCtx θ nn nf c)
    (X : List (Matrix (Fin nn) (Fin nf) ℚ)) (s : TState θ nn nf) :
    Bool × TState θ nn nf :=
  let outs := ctx.env.model true s.params X
  let loss_train := ctx.env.loss_ce (restrictRows outs ctx.idx_train_)
    (restrictLabels ctx.labels ctx.idx_train_)
  let params2 := ctx.env.update ctx.lr_ ctx.w_ s.params loss_train
  let outs2 := ctx.env.model false params2 X
  let loss_val := ctx.env.loss_ce (restrictRows outs2 ctx.idx_val_)
    (restrictLabels ctx.labels ctx.idx_val_)
  let acc_val := accuracy (restrictRows outs2 ctx.idx_val_)
    (restrictLabels ctx.labels ctx.idx_val_)
  let lval := s.loss_list_val ++ [loss_val]
  let r := s.es.test lval
  (r.1, ⟨params2, s.loss_list_train ++ [loss_train], lval,
    s.acc_list_val ++ [acc_val], r.2, s.fwdLog ++ [X, X], s.stops ++ [r.1]⟩)

/-- The epoch loop with its `if stop: break` exit (train.py:86-103). -/
def trainLoop {θ : Type} {nn nf c : ℕ} (ctx : TCtx θ nn nf c)
    (X : List (Matrix (Fin nn) (Fin nf) ℚ)) :
    ℕ → TState θ nn nf → TState θ nn nf
  | 0, s => s
  | k + 1, s =>
    let r := epochStep ctx X s
    if r.1 then r.2 else trainLoop ctx X k r.2

/-- The loop state at the end of
`train(model, n_iters, n_hids, n_epochs, X, labels, lr_, w_, p, idx_train_, idx_val_)`
(train.py:71-103).  The argument `X` is immediately shadowed by
`X = unroll(features, P, n_iters)` computed from the module-level
globals (train.py:80); the model argument is the initial parameter value
`θ0`; `n_hids` is accepted and unused, as in the source. -/
def trainState {θ : Type} {nn nf c : ℕ} (ctx : TCtx θ nn nf c) (θ0 : θ)
    (n_iters n_hids n_epochs : ℕ)
    (X : List (Matrix (Fin nn) (Fin nf) ℚ)) (p : ℕ) : TState θ nn nf :=
  let X := unroll ctx.env.features ctx.env.P n_iters
  trainLoop ctx X n_epochs ⟨θ0, [], [], [], earlystopping.init p, [], []⟩

/-- The value `train` returns:
`(loss_list_train, loss_list_val, acc_list_val)` (train.py:108). -/
def train {θ : Type} {nn nf c : ℕ} (ctx : TCtx θ nn nf c) (θ0 : θ)
    (n_iters n_hids n_epochs : ℕ)
    (X : List (Matrix (Fin nn) (Fin nf) ℚ)) (p : ℕ) :
    List ℚ × List ℚ × List ℚ :=
  let s := trainState ctx θ0 n_iters n_hids n_epochs X p
  (s.loss_list_train, s.loss_list_val, s.acc_list_val)

/-- Training-mode loss of parameters `θv`: the value appended to
`loss_list_train` by an epoch that starts from `θv`. -/
def trainLossOf {θ : Type} {nn nf c : ℕ} (ctx : TCtx θ nn nf c)
    (X : List (Matrix (Fin nn) (Fin nf) ℚ)) (θv : θ) : ℚ :=
  ctx.env.loss_ce (restrictRows (ctx.env.model true θv X) ctx.idx_train_)
    (restrictLabels ctx.labels ctx.idx_train_)

/-- The optimizer step performed by one epoch starting from `θv`. -/
def stepOf {θ : Type} {nn nf c : ℕ} (ctx : TCtx θ nn nf c)
    (X : List (Matrix (Fin nn) (Fin nf) ℚ)) (θv : θ) : θ :=
  ctx.env.update ctx.lr_ ctx.w_ θv (trainLossOf ctx X θv)

/-- Eval-mode validation loss of parameters `θv`. -/
def valLossOf {θ : Type} {nn nf c : ℕ} (ctx : TCtx θ nn nf c)
    (X : List (Matrix (Fin nn) (Fin nf) ℚ)) (θv : θ) : ℚ :=
  ctx.env.loss_ce (restrictRows (ctx.env.model false θv X) ctx.idx_val_)
    (restrictLabels ctx.labels ctx.idx_val_)

/-- Eval-mode validation accuracy of parameters `θv`. -/
def valAccOf {θ : Type} {nn nf c : ℕ} (ctx : TCtx θ nn nf c)
    (X : List (Matrix (Fin nn) (Fin nf) ℚ)) (θv : θ) : ℚ :=
  accuracy (restrictRows (ctx.env.model false θv X) ctx.idx_val_)
    (restrictLabels ctx.labels ctx.idx_val_)

/-- The parameters after `k` optimizer steps. -/
def pIter {θ : Type} {nn nf c : ℕ} (ctx : TCtx θ nn nf c)
    (X : List (Matrix (Fin nn) (Fin nf) ℚ)) (θ0 : θ) (k : ℕ) : θ :=
  (stepOf ctx X)^[k] θ0

/-- The training-loss list produced by `m` uninterrupted epochs: epoch
`k` records the loss of the parameters before its own optimizer step. -/
def idealTrainList {θ : Type} {nn nf c : ℕ} (ctx : TCtx θ nn nf c)
    (X : List (Matrix (Fin nn) (Fin nf) ℚ)) (θ0 : θ) (m : ℕ) : List ℚ :=
  (List.range m).map fun k => trainLossOf ctx X (pIter ctx X θ0 k)

/-- The validation-loss list produced by `m` uninterrupted epochs: epoch
`k` evaluates the parameters after its own optimizer step. -/
def idealValList {θ : Type} {nn nf c : ℕ} (ctx : TCtx θ nn nf c)
    (X : List (Matrix (Fin nn) (Fin nf) ℚ)) (θ0 : θ) (m : ℕ) : List ℚ :=
  (List.range m).map fun k => valLossOf ctx X (pIter ctx X θ0 (k + 1))

/-- The validation-accuracy list produced by `m` uninterrupted epochs. -/
def idealAccList {θ : Type} {nn nf c : ℕ} (ctx : TCtx θ nn nf c)
    (X : List (Matrix (Fin nn) (Fin nf) ℚ)) (θ0 : θ) (m : ℕ) : List ℚ :=
  (List.range m).map fun k => valAccOf ctx X (pIter ctx X θ0 (k + 1))

/-- The boolean `es.test` returns at epoch `m` of an uninterrupted run
with patience `p`. -/
def stopBit {θ : Type} {nn nf c : ℕ} (ctx : TCtx θ nn nf c)
    (X : List (Matrix (Fin nn) (Fin nf) ℚ)) (θ0 : θ) (p m : ℕ) : Bool :=
  (esRun (earlystopping.init p) [] (idealValList ctx X θ0 (m + 1))).1.getD m false

/-- The loop state reached after `m` uninterrupted epochs. -/
def mkTState {θ : Type} {nn nf c : ℕ} (ctx : TCtx θ nn nf c)
    (X : List (Matrix (Fin nn) (Fin nf) ℚ)) (θ0 : θ) (p m : ℕ) :
    TState θ nn nf :=
  ⟨pIter ctx X θ0 m, idealTrainList ctx X θ0 m, idealValList ctx X θ0 m,
    idealAccList ctx X θ0 m,
    (esRun (earlystopping.init p) [] (idealValList ctx X θ0 m)).2,
    List.replicate (2 * m) X,
    (esRun (earlystopping.init p) [] (idealValList ctx X θ0 m)).1⟩

/-- The command-line arguments of the script, with exactly the fields the
parser declares (train.py:133-142): `lr`, `wd`, `n_hid`, `n_iter`,
`dataset`, `ps`, `d1`, `d2`, `d3`.  There is no separate epochs
argument. -/
structure Args where
  lr : ℚ
  wd : ℚ
  n_hid : ℕ
  n_iter : ℕ
  dataset : String
  ps : ℕ
  d1 : ℚ
  d2 : ℚ
  d3 : ℚ

/-- The parser defaults (train.py:134-142). -/
def defaultArgs : Args :=
  ⟨1 / 100, 1 / 100, 112, 9, "cora", 5, 1 / 5, 1 / 5, 2 / 5⟩

/-- The script-level assignment `n_iters = arg.n_iter` (train.py:153). -/
def n_iters_assign (arg : Args) : ℕ := arg.n_iter

/-- The script-level assignment `n_epochs = arg.n_iter` (train.py:157). -/
def n_epochs_assign (arg : Args) : ℕ := arg.n_iter

/-- A concrete 2-node, 1-feature matrix used in witnesses. -/
def X0 : Matrix (Fin 2) (Fin 1) ℚ :=
  Matrix.of fun i _ => if i = 0 then 1 else 2

/-- A concrete 2×2 propagation matrix used in witnesses. -/
def P0 : Matrix (Fin 2) (Fin 2) ℚ :=
  Matrix.of fun i j => if i = j then 0 else 1

/-! ## Theorems -/

theorem unrollEntry_eq_pow {n f : ℕ} (X : Matrix (Fin n) (Fin f) ℚ)
    (P : Matrix (Fin n) (Fin n) ℚ) (i : ℕ) :
    unrollEntry X P i = P ^ i * X := by
  induction i with
  | zero => simp [unrollEntry]
  | succ k ih =>
    rw [unrollEntry, ih, pow_succ', Matrix.mul_assoc]

@[simp]
theorem unroll_length {n f : ℕ} (X : Matrix (Fin n) (Fin f) ℚ)
    (P : Matrix (Fin n) (Fin n) ℚ) (n_iters : ℕ) :
    (unroll X P n_iters).length = n_iters := by
  simp [unroll]

theorem unroll_getD {n f : ℕ} (X : Matrix (Fin n) (Fin f) ℚ)
    (P : Matrix (Fin n) (Fin n) ℚ) (n_iters i : ℕ) (hi : i < n_iters) :
    (unroll X P n_iters).getD i 0 = P ^ i * X := by
  rw [unroll, List.getD_eq_getElem?_getD, List.getElem?_map,
    List.getElem?_range hi]
  simp [unrollEntry_eq_pow]

/-- C1: for every feature matrix `X`, propagation matrix `P` and
`n_iters ≥ 1`, `unroll X P n_iters` produces exactly `n_iters` snapshots,
snapshot `i` equals `P ^ i * X` for every `i < n_iters`, and snapshot `0`
is `X` unchanged. -/
theorem unroll_spec {n f : ℕ} (X : Matrix (Fin n) (Fin f) ℚ)
    (P : Matrix (Fin n) (Fin n) ℚ) (n_iters i : ℕ)
    (h1 : 1 ≤ n_iters) (hi : i < n_iters) :
    (unroll X P n_iters).length = n_iters ∧
    (unroll X P n_iters).getD i 0 = P ^ i * X ∧
    (unroll X P n_iters).getD 0 0 = X := by
  refine ⟨unroll_length X P n_iters, unroll_getD X P n_iters i hi, ?_⟩
  rw [unroll_getD X P n_iters 0 h1]
  simp

/-- Witness for C1 at `X0`, `P0`, `n_iters = 3`, `i = 2`. -/
theorem unroll_spec_witness :
    (unroll X0 P0 3).length = 3 ∧
    (unroll X0 P0 3).getD 2 0 = P0 ^ 2 * X0 ∧
    (unroll X0 P0 3).getD 0 0 = X0 :=
  unroll_spec X0 P0 3 2 (by decide) (by decide)

theorem countNI_succ (losses : List ℚ) (m : ℕ) :
    countNI losses (m + 1) =
      countNI losses m + if nonImprovingB losses m then 1 else 0 := by
  simp [countNI, List.range_succ, List.countP_append, List.countP_cons]

theorem runningBest_concat (xs : List ℚ) (x : ℚ) :
    runningBest (xs ++ [x]) =
      if x < runningBest xs then x else runningBest xs := by
  simp [runningBest, List.foldl_append]

/-- Invariant of the early-stopping state machine: starting from a state
whose `best` is the running best of the losses already submitted and
whose counter `t` equals the number of non-improving epochs so far, a run
over the remaining losses ends with `best` the running best of the whole
sequence and `t` the total non-improving count, and the boolean returned
at each call is `non-improving ∧ total count > patience`. -/
theorem esRun_invariant (p : ℕ) (full : List ℚ) (ls : List ℚ) :
    ∀ (done : List ℚ) (s : earlystopping),
      done ++ ls = full → s.patience = p →
      s.best = runningBest done → s.t = countNI full done.length →
      (esRun s done ls).2 = ⟨runningBest full, p, countNI full full.length⟩ ∧
      (esRun s done ls).1.length = ls.length ∧
      ∀ k, k < ls.length →
        (esRun s done ls).1.getD k false =
          (nonImprovingB full (done.length + k) &&
            decide (p < countNI full (done.length + k + 1))) := by
  induction ls with
  | nil =>
    intro done s hfull hp hb ht
    rw [List.append_nil] at hfull
    subst hfull
    refine ⟨?_, rfl, fun k hk => absurd hk (by simp)⟩
    cases s with
    | mk b pt t =>
      simp only at hp hb ht
      simp [esRun, hp, hb, ht]
  | cons l ls ih =>
    intro done s hfull hp hb ht
    have hl : full.getD done.length 0 = l := by
      rw [← hfull, List.getD_eq_getElem?_getD,
        List.getElem?_append_right (le_refl done.length)]
      simp
    have htake : full.take done.length = done := by
      rw [← hfull, List.take_left' rfl]
    have hnonim : nonImprovingB full done.length =
        decide (runningBest done ≤ l) := by
      rw [nonImprovingB, htake, hl]
    have hfull' : (done ++ [l]) ++ ls = full := by
      rw [← hfull]; simp
    have hlen' : (done ++ [l]).length = done.length + 1 := by simp
    by_cases hlt : l < runningBest done
    · -- improving epoch: best updates, counter unchanged, returns False
      have hr : s.test (done ++ [l]) = (false, ⟨l, s.patience, s.t⟩) := by
        rw [earlystopping.test]
        simp [List.getLastD_concat, hb, hlt]
      have hnf : nonImprovingB full done.length = false := by
        rw [hnonim]; simp [not_le.mpr hlt]
      obtain ⟨h1, h2, h3⟩ := ih (done ++ [l]) ⟨l, s.patience, s.t⟩ hfull' hp
        (by rw [runningBest_concat, if_pos hlt])
        (by rw [ht, hlen', countNI_succ, hnf]; simp)
      refine ⟨?_, ?_, ?_⟩
      · rw [esRun, hr]
        exact h1
      · rw [esRun, hr]
        simp [h2]
      · intro k hk
        rw [esRun, hr]
        match k with
        | 0 => simp [hnf]
        | k' + 1 =>
          have := h3 k' (by simpa using hk)
          rw [hlen'] at this
          simpa [Nat.add_assoc, Nat.add_comm 1 k'] using this
    · -- non-improving epoch: best kept, counter incremented
      have hle : runningBest done ≤ l := not_lt.mp hlt
      have hnt : nonImprovingB full done.length = true := by
        rw [hnonim]; simp [hle]
      have hcnt : countNI full (done.length + 1) =
          countNI full done.length + 1 := by
        rw [countNI_succ, hnt, if_pos rfl]
      have hr : s.test (done ++ [l]) =
          (decide (p < countNI full (done.length + 1)),
            ⟨s.best, s.patience, s.t + 1⟩) := by
        rw [earlystopping.test]
        simp only [List.getLastD_concat, hb, if_neg hlt, hp, ht, hcnt]
        by_cases hgt : countNI full done.length + 1 > p
        · simp [hgt]
        · simp [hgt, not_lt.mp hgt]
      obtain ⟨h1, h2, h3⟩ := ih (done ++ [l]) ⟨s.best, s.patience, s.t + 1⟩ hfull' hp
        (by rw [hb, runningBest_concat, if_neg hlt])
        (by rw [ht, hlen', hcnt])
      refine ⟨?_, ?_, ?_⟩
      · rw [esRun, hr]
        exact h1
      · rw [esRun, hr]
        simp [h2]
      · intro k hk
        rw [esRun, hr]
        match k with
        | 0 => simp [hnt]
        | k' + 1 =>
          have := h3 k' (by simpa using hk)
          rw [hlen'] at this
          simpa [Nat.add_assoc, Nat.add_comm 1 k'] using this

/-- C2 (amended): over the sequence of calls `train` makes (one per
epoch, passing the accumulated validation-loss list),
`earlystopping.test` with patience `p` returns `True` at epoch `k`
exactly when the epoch-`k` loss fails to improve on the running best
(seeded with the initial `best = 1000`) and the cumulative — not
consecutive — count of non-improving epochs among the first `k + 1`
exceeds `p`; the counter is never reset by an improving epoch. -/
theorem earlystopping_test_spec (p : ℕ) (losses : List ℚ) (k : ℕ)
    (hk : k < losses.length) :
    (esRun (earlystopping.init p) [] losses).1.getD k false = true ↔
      runningBest (losses.take k) ≤ losses.getD k 0 ∧
        p < countNI losses (k + 1) := by
  obtain ⟨-, -, hout⟩ :=
    esRun_invariant p losses losses [] (earlystopping.init p) rfl rfl rfl rfl
  rw [hout k hk]
  simp [nonImprovingB]

/-- Witness for the amended C2 at patience `1`, losses `[10, 11, 9, 12]`,
epoch `k = 3`. -/
theorem earlystopping_test_spec_witness :
    ((esRun (earlystopping.init 1) [] [10, 11, 9, 12]).1.getD 3 false = true ↔
      runningBest ([(10 : ℚ), 11, 9, 12].take 3) ≤
          [(10 : ℚ), 11, 9, 12].getD 3 0 ∧
        1 < countNI [10, 11, 9, 12] 4) :=
  earlystopping_test_spec 1 [10, 11, 9, 12] 3 (by decide)

/-- Counterexample to C2 as stated: with patience `1` and validation
losses `[10, 11, 9, 12]`, the fourth call to `test` returns `True`
although the count of consecutive non-improving epochs ending there is
only `1`, which does not exceed the patience: the counter `t` is never
reset at an improving epoch (epoch 3, loss `9`), so it counts
cumulatively, not consecutively. -/
theorem earlystopping_consecutive_counterexample :
    (esRun (earlystopping.init 1) [] [10, 11, 9, 12]).1.getD 3 false = true ∧
    consecNI [10, 11, 9, 12] 3 = 1 ∧ ¬ (1 : ℕ) > 1 := by
  decide

theorem runningBest_eq_foldl_min (losses : List ℚ) :
    runningBest losses = List.foldl min 1000 losses := by
  suffices h : ∀ b : ℚ,
      List.foldl (fun b l => if l < b then l else b) b losses =
        List.foldl min b losses from h 1000
  induction losses with
  | nil => intro b; rfl
  | cons x xs ih =>
    intro b
    simp only [List.foldl_cons]
    have hmin : (if x < b then x else b) = min b x := by
      by_cases hx : x < b
      · rw [if_pos hx, min_eq_right (le_of_lt hx)]
      · rw [if_neg hx, min_eq_left (not_lt.mp hx)]
    rw [hmin, ih]

theorem esRun_best (p : ℕ) (ls : List ℚ) :
    (esRun (earlystopping.init p) [] ls).2.best = runningBest ls := by
  obtain ⟨h1, -, -⟩ :=
    esRun_invariant p ls ls [] (earlystopping.init p) rfl rfl rfl rfl
  rw [h1]

/-- C5 (amended): across any sequence of calls to `earlystopping.test`,
the stored `best` is non-increasing, and after each call it equals the
minimum of the initial sentinel `1000` and all validation losses
submitted so far — not of the losses alone, since `best` starts at
`1000` rather than infinity. -/
theorem earlystopping_best_spec (p : ℕ) (losses : List ℚ) :
    (esRun (earlystopping.init p) [] losses).2.best =
      List.foldl min 1000 losses ∧
    ∀ k : ℕ,
      (esRun (earlystopping.init p) [] (losses.take (k + 1))).2.best ≤
        (esRun (earlystopping.init p) [] (losses.take k)).2.best := by
  refine ⟨by rw [esRun_best, runningBest_eq_foldl_min], fun k => ?_⟩
  rw [esRun_best, esRun_best, List.take_succ]
  cases h : losses[k]? with
  | none => simp
  | some a =>
    rw [Option.toList, runningBest_concat]
    by_cases ha : a < runningBest (losses.take k)
    · rw [if_pos ha]; exact le_of_lt ha
    · rw [if_neg ha]

/-- Counterexample to C5 as stated: submit the single validation loss
`2000`; the stored best remains the initial `1000`, which is not the
minimum (`2000`) of the losses submitted so far. -/
theorem earlystopping_best_counterexample :
    (esRun (earlystopping.init 5) [] [2000]).2.best = 1000 ∧
    (1000 : ℚ) ≠ 2000 := by
  decide

theorem esRun_length (s : earlystopping) (done ls : List ℚ) :
    (esRun s done ls).1.length = ls.length := by
  induction ls generalizing done s with
  | nil => rfl
  | cons l ls ih => simp [esRun, ih]

theorem esRun_snoc (s : earlystopping) (done ls : List ℚ) (x : ℚ) :
    esRun s done (ls ++ [x]) =
      ((esRun s done ls).1 ++
          [((esRun s done ls).2.test (done ++ ls ++ [x])).1],
        ((esRun s done ls).2.test (done ++ ls ++ [x])).2) := by
  induction ls generalizing done s with
  | nil => simp [esRun]
  | cons l ls ih =>
    simp only [List.cons_append, esRun, List.append_eq]
    rw [ih]
    simp [List.append_assoc]

theorem getD_append_length {α : Type*} (l : List α) (a d : α) (m : ℕ)
    (h : l.length = m) : (l ++ [a]).getD m d = a := by
  subst h
  rw [List.getD_eq_getElem?_getD, List.getElem?_append_right (le_refl l.length)]
  simp

/-- One epoch taken from the `m`-epoch ideal state reaches the
`(m+1)`-epoch ideal state and returns the `m`-th stop bit. -/
theorem epochStep_mkTState {θ : Type} {nn nf c : ℕ} (ctx : TCtx θ nn nf c)
    (X : List (Matrix (Fin nn) (Fin nf) ℚ)) (θ0 : θ) (p m : ℕ) :
    epochStep ctx X (mkTState ctx X θ0 p m) =
      (stopBit ctx X θ0 p m, mkTState ctx X θ0 p (m + 1)) := by
  have hp1 : pIter ctx X θ0 (m + 1) = stepOf ctx X (pIter ctx X θ0 m) := by
    simp [pIter, Function.iterate_succ_apply']
  have hlen : (esRun (earlystopping.init p) []
      (idealValList ctx X θ0 m)).1.length = m := by
    rw [esRun_length]
    simp [idealValList]
  have hval : idealValList ctx X θ0 (m + 1) =
      idealValList ctx X θ0 m ++
        [valLossOf ctx X (stepOf ctx X (pIter ctx X θ0 m))] := by
    rw [← hp1]
    simp [idealValList, List.range_succ]
  have htr : idealTrainList ctx X θ0 (m + 1) =
      idealTrainList ctx X θ0 m ++ [trainLossOf ctx X (pIter ctx X θ0 m)] := by
    simp [idealTrainList, List.range_succ]
  have hacc : idealAccList ctx X θ0 (m + 1) =
      idealAccList ctx X θ0 m ++
        [valAccOf ctx X (stepOf ctx X (pIter ctx X θ0 m))] := by
    rw [← hp1]
    simp [idealAccList, List.range_succ]
  have hrep : List.replicate (2 * (m + 1)) X =
      List.replicate (2 * m) X ++ [X, X] := by
    rw [Nat.mul_succ, List.replicate_add]
    rfl
  have hsn := esRun_snoc (earlystopping.init p) [] (idealValList ctx X θ0 m)
    (valLossOf ctx X (stepOf ctx X (pIter ctx X θ0 m)))
  simp only [List.nil_append] at hsn
  have hstop : stopBit ctx X θ0 p m =
      ((esRun (earlystopping.init p) [] (idealValList ctx X θ0 m)).2.test
        (idealValList ctx X θ0 m ++
          [valLossOf ctx X (stepOf ctx X (pIter ctx X θ0 m))])).1 := by
    rw [stopBit, hval, hsn]
    exact getD_append_length _ _ _ _ hlen
  have hstep : epochStep ctx X (mkTState ctx X θ0 p m) =
      (((esRun (earlystopping.init p) [] (idealValList ctx X θ0 m)).2.test
          (idealValList ctx X θ0 m ++
            [valLossOf ctx X (stepOf ctx X (pIter ctx X θ0 m))])).1,
        ⟨stepOf ctx X (pIter ctx X θ0 m),
          idealTrainList ctx X θ0 m ++ [trainLossOf ctx X (pIter ctx X θ0 m)],
          idealValList ctx X θ0 m ++
            [valLossOf ctx X (stepOf ctx X (pIter ctx X θ0 m))],
          idealAccList ctx X θ0 m ++
            [valAccOf ctx X (stepOf ctx X (pIter ctx X θ0 m))],
          ((esRun (earlystopping.init p) [] (idealValList ctx X θ0 m)).2.test
            (idealValList ctx X θ0 m ++
              [valLossOf ctx X (stepOf ctx X (pIter ctx X θ0 m))])).2,
          List.replicate (2 * m) X ++ [X, X],
          (esRun (earlystopping.init p) [] (idealValList ctx X θ0 m)).1 ++
            [((esRun (earlystopping.init p) [] (idealValList ctx X θ0 m)).2.test
              (idealValList ctx X θ0 m ++
                [valLossOf ctx X (stepOf ctx X (pIter ctx X θ0 m))])).1]⟩) :=
    rfl
  have hmk : mkTState ctx X θ0 p (m + 1) =
      (⟨stepOf ctx X (pIter ctx X θ0 m),
        idealTrainList ctx X θ0 m ++ [trainLossOf ctx X (pIter ctx X θ0 m)],
        idealValList ctx X θ0 m ++
          [valLossOf ctx X (stepOf ctx X (pIter ctx X θ0 m))],
        idealAccList ctx X θ0 m ++
          [valAccOf ctx X (stepOf ctx X (pIter ctx X θ0 m))],
        ((esRun (earlystopping.init p) [] (idealValList ctx X θ0 m)).2.test
          (idealValList ctx X θ0 m ++
            [valLossOf ctx X (stepOf ctx X (pIter ctx X θ0 m))])).2,
        List.replicate (2 * m) X ++ [X, X],
        (esRun (earlystopping.init p) [] (idealValList ctx X θ0 m)).1 ++
          [((esRun (earlystopping.init p) [] (idealValList ctx X θ0 m)).2.test
            (idealValList ctx X θ0 m ++
              [valLossOf ctx X (stepOf ctx X (pIter ctx X θ0 m))])).1]⟩ :
        TState θ nn nf) := by
    rw [mkTState, hp1, hval, htr, hacc, hrep, hsn]
  rw [hstep, hstop, hmk]

/-- Running the loop from the `m`-epoch ideal state for `k` more epochs
reaches the `m'`-epoch ideal state for some `m ≤ m' ≤ m + k`; no stop
bit strictly before the last executed epoch is `true`, and the loop only
exits early when the last executed epoch's stop bit is `true`. -/
theorem trainLoop_mkTState {θ : Type} {nn nf c : ℕ} (ctx : TCtx θ nn nf c)
    (X : List (Matrix (Fin nn) (Fin nf) ℚ)) (θ0 : θ) (p : ℕ) :
    ∀ k m : ℕ, ∃ m', m ≤ m' ∧ m' ≤ m + k ∧
      trainLoop ctx X k (mkTState ctx X θ0 p m) = mkTState ctx X θ0 p m' ∧
      (∀ j, m ≤ j → j + 1 < m' → stopBit ctx X θ0 p j = false) ∧
      (m' < m + k → m < m' ∧ stopBit ctx X θ0 p (m' - 1) = true) := by
  intro k
  induction k with
  | zero =>
    intro m
    exact ⟨m, le_refl m, by omega, rfl, fun j hj hj2 => by omega,
      fun h => by omega⟩
  | succ k ih =>
    intro m
    by_cases hstop : stopBit ctx X θ0 p m = true
    · refine ⟨m + 1, by omega, by omega, ?_, ?_, ?_⟩
      · rw [trainLoop, epochStep_mkTState, hstop]
        simp
      · intro j hj hj2
        omega
      · intro h
        exact ⟨by omega, by simpa using hstop⟩
    · have hsf : stopBit ctx X θ0 p m = false := Bool.eq_false_iff.mpr hstop
      obtain ⟨m', h1, h2, h3, h4, h5⟩ := ih (m + 1)
      refine ⟨m', by omega, by omega, ?_, ?_, ?_⟩
      · rw [trainLoop, epochStep_mkTState, hsf]
        simpa using h3
      · intro j hj hj2
        rcases eq_or_lt_of_le hj with rfl | hlt
        · exact hsf
        · exact h4 j (by omega) hj2
      · intro h
        exact ⟨by omega, (h5 (by omega)).2⟩

/-- The final loop state of `train` is the ideal state of some number
`m ≤ n_epochs` of executed epochs, with the stop bits false before the
last executed epoch, and true at it if the loop exited early. -/
theorem trainState_eq_mkTState {θ : Type} {nn nf c : ℕ} (ctx : TCtx θ nn nf c)
    (θ0 : θ) (n_iters n_hids n_epochs : ℕ)
    (X : List (Matrix (Fin nn) (Fin nf) ℚ)) (p : ℕ) :
    ∃ m, m ≤ n_epochs ∧
      trainState ctx θ0 n_iters n_hids n_epochs X p =
        mkTState ctx (unroll ctx.env.features ctx.env.P n_iters) θ0 p m ∧
      (∀ j, j + 1 < m →
        stopBit ctx (unroll ctx.env.features ctx.env.P n_iters) θ0 p j = false) ∧
      (m < n_epochs → 0 < m ∧
        stopBit ctx (unroll ctx.env.features ctx.env.P n_iters) θ0 p (m - 1) =
          true) := by
  obtain ⟨m', h1, h2, h3, h4, h5⟩ :=
    trainLoop_mkTState ctx (unroll ctx.env.features ctx.env.P n_iters) θ0 p
      n_epochs 0
  refine ⟨m', by omega, ?_, fun j hj => h4 j (by omega) hj, fun h => ?_⟩
  · rw [trainState]
    exact h3
  · obtain ⟨ha, hb⟩ := h5 (by omega)
    exact ⟨ha, hb⟩

/-- C3: `train` executes at most `n_epochs` epochs, and its final loop
state is exactly the ideal state of the `m` executed epochs: each epoch
appended exactly one entry to each of the three returned lists (so the
lists all have length `m ≤ n_epochs`), the `loss_list_train` entry of an
epoch is the cross-entropy loss on the training rows of the parameters
before that epoch's optimizer step (forward and backward precede the
step), the `loss_list_val` and `acc_list_val` entries evaluate the
parameters after the step, and the model parameters end at the `m`-fold
optimizer iterate.  The loop never continues past an epoch whose
early-stopping test signalled stop, and it ends before `n_epochs` only
when the last executed epoch signalled stop. -/
theorem train_epoch_loop_spec {θ : Type} {nn nf c : ℕ} (ctx : TCtx θ nn nf c)
    (θ0 : θ) (n_iters n_hids n_epochs : ℕ)
    (X : List (Matrix (Fin nn) (Fin nf) ℚ)) (p : ℕ) :
    ∃ m, m ≤ n_epochs ∧
      trainState ctx θ0 n_iters n_hids n_epochs X p =
        mkTState ctx (unroll ctx.env.features ctx.env.P n_iters) θ0 p m ∧
      (trainState ctx θ0 n_iters n_hids n_epochs X p).loss_list_train =
        idealTrainList ctx (unroll ctx.env.features ctx.env.P n_iters) θ0 m ∧
      (trainState ctx θ0 n_iters n_hids n_epochs X p).loss_list_val =
        idealValList ctx (unroll ctx.env.features ctx.env.P n_iters) θ0 m ∧
      (trainState ctx θ0 n_iters n_hids n_epochs X p).acc_list_val =
        idealAccList ctx (unroll ctx.env.features ctx.env.P n_iters) θ0 m ∧
      (trainState ctx θ0 n_iters n_hids n_epochs X p).loss_list_train.length = m ∧
      (trainState ctx θ0 n_iters n_hids n_epochs X p).loss_list_val.length = m ∧
      (trainState ctx θ0 n_iters n_hids n_epochs X p).acc_list_val.length = m ∧
      (∀ j, j + 1 < m →
        stopBit ctx (unroll ctx.env.features ctx.env.P n_iters) θ0 p j = false) ∧
      (m < n_epochs → 0 < m ∧
        stopBit ctx (unroll ctx.env.features ctx.env.P n_iters) θ0 p (m - 1) =
          true) := by
  obtain ⟨m, hm, hts, hbits, hlast⟩ :=
    trainState_eq_mkTState ctx θ0 n_iters n_hids n_epochs X p
  refine ⟨m, hm, hts, ?_, ?_, ?_, ?_, ?_, ?_, hbits, hlast⟩ <;>
    rw [hts] <;>
    simp [mkTState, idealTrainList, idealValList, idealAccList]

/-- C4: every tensor passed to the model in `train`'s forward passes
equals `unroll(features, P, n_iters)` computed from the module-level
globals: the forward-input log is a constant list of that tensor, with
two entries (one training-mode and one eval-mode forward pass) per
executed epoch, whatever the `X` argument was. -/
theorem train_forward_input_spec {θ : Type} {nn nf c : ℕ}
    (ctx : TCtx θ nn nf c) (θ0 : θ) (n_iters n_hids n_epochs : ℕ)
    (X : List (Matrix (Fin nn) (Fin nf) ℚ)) (p : ℕ) :
    (trainState ctx θ0 n_iters n_hids n_epochs X p).fwdLog =
      List.replicate
        (2 * (trainState ctx θ0 n_iters n_hids n_epochs X p).loss_list_val.length)
        (unroll ctx.env.features ctx.env.P n_iters) := by
  obtain ⟨m, hm, hts, hbits, hlast⟩ :=
    trainState_eq_mkTState ctx θ0 n_iters n_hids n_epochs X p
  rw [hts]
  simp [mkTState, idealValList]

/-- C6: `train` never reads its `X` argument — it rebinds `X` to
`unroll(features, P, n_iters)` computed from the globals before the
first epoch — so its returned loss and accuracy lists are identical for
any two argument tensors. -/
theorem train_ignores_X {θ : Type} {nn nf c : ℕ} (ctx : TCtx θ nn nf c)
    (θ0 : θ) (n_iters n_hids n_epochs : ℕ)
    (X1 X2 : List (Matrix (Fin nn) (Fin nf) ℚ)) (p : ℕ) :
    train ctx θ0 n_iters n_hids n_epochs X1 p =
      train ctx θ0 n_iters n_hids n_epochs X2 p :=
  rfl

/-- C8: the script assigns the epoch budget from the `--n_iter`
command-line argument (`n_epochs = arg.n_iter`; the parser declares no
separate epochs argument), so the epoch loop of `train` is bounded by
`arg.n_iter` epochs — `9` under the parser defaults. -/
theorem script_epoch_budget {θ : Type} {nn nf c : ℕ} (arg : Args)
    (ctx : TCtx θ nn nf c) (θ0 : θ)
    (X : List (Matrix (Fin nn) (Fin nf) ℚ)) :
    n_epochs_assign arg = arg.n_iter ∧
    n_epochs_assign defaultArgs = 9 ∧
    (trainState ctx θ0 (n_iters_assign arg) arg.n_hid (n_epochs_assign arg) X
        arg.ps).loss_list_val.length ≤ arg.n_iter := by
  refine ⟨rfl, rfl, ?_⟩
  obtain ⟨m, hm, hts, hbits, hlast⟩ := trainState_eq_mkTState ctx θ0
    (n_iters_assign arg) arg.n_hid (n_epochs_assign arg) X arg.ps
  rw [hts]
  have : (mkTState ctx
      (unroll ctx.env.features ctx.env.P (n_iters_assign arg)) θ0 arg.ps
      m).loss_list_val.length = m := by
    simp [mkTState, idealValList]
  rw [this]
  exact hm

theorem argmaxList_lt_length (l : List ℚ) (hl : l ≠ []) :
    argmaxList l < l.length := by
  induction l with
  | nil => exact absurd rfl hl
  | cons x xs ih =>
    rw [argmaxList]
    by_cases hx : x < xs.getD (argmaxList xs) x
    · have hxs : xs ≠ [] := by
        intro h
        rw [h] at hx
        exact absurd hx (lt_irrefl x)
      simp only [if_pos hx, List.length_cons]
      exact Nat.succ_lt_succ (ih hxs)
    · rw [if_neg hx]
      simp

/-- The entry `argmaxList` points at is an upper bound of the row: the
returned index is an arg-max. -/
theorem argmaxList_attains (l : List ℚ) (v : ℚ) (hv : v ∈ l) :
    v ≤ l.getD (argmaxList l) 0 := by
  induction l with
  | nil => simp at hv
  | cons x xs ih =>
    rw [argmaxList]
    by_cases hx : x < xs.getD (argmaxList xs) x
    · have hxs : xs ≠ [] := by
        intro h
        rw [h] at hx
        exact absurd hx (lt_irrefl x)
      have hj : argmaxList xs < xs.length := argmaxList_lt_length xs hxs
      have hgd : xs.getD (argmaxList xs) x = xs.getD (argmaxList xs) 0 := by
        rw [List.getD_eq_getElem?_getD, List.getD_eq_getElem?_getD,
          List.getElem?_eq_getElem hj]
        rfl
      simp only [if_pos hx, List.getD_cons_succ]
      rcases List.mem_cons.mp hv with rfl | hmem
      · rw [← hgd]
        exact le_of_lt hx
      · exact ih hmem
    · simp only [if_neg hx, List.getD_cons_zero]
      rcases List.mem_cons.mp hv with rfl | hmem
      · exact le_refl v
      · have hxs : xs ≠ [] := List.ne_nil_of_mem hmem
        have hj : argmaxList xs < xs.length := argmaxList_lt_length xs hxs
        have hgd : xs.getD (argmaxList xs) x = xs.getD (argmaxList xs) 0 := by
          rw [List.getD_eq_getElem?_getD, List.getD_eq_getElem?_getD,
            List.getElem?_eq_getElem hj]
          rfl
        have := ih hmem
        rw [← hgd] at this
        exact le_trans this (not_lt.mp hx)

theorem countP_zip_range {α β : Type*} (q : α × β → Bool) (d1 : α) (d2 : β) :
    ∀ (xs : List α) (ys : List β), xs.length = ys.length →
      (xs.zip ys).countP q =
        ((List.range xs.length).countP fun i => q (xs.getD i d1, ys.getD i d2)) := by
  intro xs
  induction xs with
  | nil =>
    intro ys h
    simp
  | cons x xs ih =>
    intro ys h
    cases ys with
    | nil => simp at h
    | cons y ys =>
      rw [List.zip_cons_cons, List.countP_cons, ih ys (by simpa using h),
        List.length_cons, List.range_succ_eq_map, List.countP_cons,
        List.countP_map]
      have hco : ((fun i => q ((x :: xs).getD i d1, (y :: ys).getD i d2)) ∘
          Nat.succ) = fun i => q (xs.getD i d1, ys.getD i d2) := by
        funext i
        simp [Function.comp]
      rw [hco]
      simp

theorem preds_getD (output : List (List ℚ)) (i : ℕ) :
    (preds output).getD i 0 = argmaxList (output.getD i []) := by
  rw [preds, List.getD_eq_getElem?_getD, List.getD_eq_getElem?_getD,
    List.getElem?_map]
  cases output[i]? with
  | none => rfl
  | some row => rfl

/-- C7: `accuracy(output, labels)` is the number of rows whose arg-max
class index equals the corresponding label, divided by the number of
labels, and the result lies in the closed interval `[0, 1]`
(`argmaxList` returns the index of the first maximal row entry, as
`output.max(1)[1]` does; `argmaxList_attains` checks it is an arg-max). -/
theorem accuracy_spec (output : List (List ℚ)) (labels : List ℕ)
    (hlen : output.length = labels.length) (hne : labels ≠ []) :
    accuracy output labels =
      ((((List.range labels.length).countP fun i =>
          argmaxList (output.getD i []) == labels.getD i 0) : ℕ) : ℚ) /
        (labels.length : ℚ) ∧
    0 ≤ accuracy output labels ∧ accuracy output labels ≤ 1 := by
  have hplen : (preds output).length = labels.length := by
    rw [preds, List.length_map, hlen]
  have hcount : ((preds output).zip labels).countP (fun q => q.1 == q.2) =
      ((List.range labels.length).countP fun i =>
        argmaxList (output.getD i []) == labels.getD i 0) := by
    rw [countP_zip_range (fun q => q.1 == q.2) 0 0 (preds output) labels hplen,
      hplen]
    congr 1
    funext i
    rw [preds_getD]
  have hpos : (0 : ℚ) < (labels.length : ℚ) := by
    exact_mod_cast List.length_pos.mpr hne
  refine ⟨by rw [accuracy, hcount], ?_, ?_⟩
  · exact div_nonneg (by positivity) (le_of_lt hpos)
  · rw [accuracy, div_le_one hpos]
    have hle : ((preds output).zip labels).countP (fun q => q.1 == q.2) ≤
        labels.length := by
      calc ((preds output).zip labels).countP (fun q => q.1 == q.2) ≤
          ((preds output).zip labels).length := List.countP_le_length _
        _ = labels.length := by rw [List.length_zip, hplen, Nat.min_self]
    exact_mod_cast hle

/-- Witness for C7 at a 2-row score matrix: row arg-maxes are `1` and
`0`, labels are `[1, 0]`, so the accuracy is `1`. -/
theorem accuracy_spec_witness :
    accuracy [[(1 : ℚ), 3], [5, 2]] [1, 0] =
      ((((List.range ([1, 0] : List ℕ).length).countP fun i =>
          argmaxList (([[(1 : ℚ), 3], [5, 2]] : List (List ℚ)).getD i []) ==
            ([1, 0] : List ℕ).getD i 0) : ℕ) : ℚ) /
        ((([1, 0] : List ℕ).length : ℕ) : ℚ) ∧
    0 ≤ accuracy [[(1 : ℚ), 3], [5, 2]] [1, 0] ∧
    accuracy [[(1 : ℚ), 3], [5, 2]] [1, 0] ≤ 1 :=
  accuracy_spec [[(1 : ℚ), 3], [5, 2]] [1, 0] (by decide) (by decide)

end GRNSpec
